import Mathlib

set_option maxHeartbeats 1000000

/-!
# Verification of the `spell` package manager core (spell.py)

A shallow embedding of the core data model and operations of `spell.py`,
a source-based package manager, together with proofs about them.

Modelling conventions:
* Python dictionaries become association lists (`List (name × value)`);
  dictionary-merge priority (`{**a, **b}`, later wins) becomes list order
  with first-match lookup.
* Python sets iterated by the code become lists in discovery order; the
  properties proved below do not depend on the enumeration order.
* Filesystem and process side effects (downloading, extracting, deleting
  files) are modelled as explicit effect values or as the ordered list of
  paths the code processes; the digest of a downloaded file is an explicit
  parameter (the hashing itself is done by `hashlib`, outside the core).
* `raise SystemExit(msg)` becomes an error value carried in the result.
* The recursive `dfs` inside `topo_sort` is rendered as an explicit
  worklist recursion preserving the original visit order; the `while q`
  loop of Kahn's algorithm is rendered as a terminating recursion on the
  queue, with the in-degree table as a function `String → Int`.
-/

/-! ## Data model (Recipe, PackageRecord, the registry) -/

/-- One entry of a recipe's `source:` list (a YAML mapping in the code).
`src.get('type','curl')` is modelled by `srcType.getD "curl"`. -/
structure SourceSpec where
  srcType : Option String
  url : String
  filename : Option String
  hash : Option String
  ref : Option String
  dir : Option String
deriving DecidableEq

/-- One entry of a recipe's `patches:` list: `{url}`, `{dir}` or a bare path. -/
inductive PatchSpec where
  | purl (u : String)
  | pdir (d : String)
  | pfile (p : String)
deriving DecidableEq

/-- The `Recipe` dataclass of spell.py. Variable values (`vars`) are kept as
strings (the code passes every value through `str`). -/
structure Recipe where
  name : String
  version : String
  vars : List (String × String)
  source : List SourceSpec
  patches : List PatchSpec
  build : List String
  install : List String
  runtime_deps : List String
  build_deps : List String
  provides : List String
  path : String
deriving DecidableEq

/-- The `PackageRecord` dataclass: the unit of registry state. -/
structure PackageRecord where
  name : String
  version : String
  files : List String
  runtime_deps : List String
  build_deps : List String
  provides : List String
deriving DecidableEq

/-- The installed-set of the JSON registry `db.json`: the dictionary
`data["installed"]` (package name → record) as an association list. -/
abbrev Registry := List (String × PackageRecord)

/-! ## Small utilities -/

/-- Boolean membership in a list of strings (Python `x in s`). -/
def memB (x : String) (l : List String) : Bool :=
  l.any (fun y => y == x)

/-- `Path(url).name`: the last `/`-separated component. -/
def pathName (s : String) : String :=
  (s.splitOn "/").getLastD s

/-- `Path(url).stem`: the last component without its final suffix. -/
def stemOf (s : String) : String :=
  let n := pathName s
  match n.splitOn "." with
  | [] => n
  | [x] => x
  | parts => String.intercalate "." parts.dropLast

/-- `len(x.split('/'))`: the path-segment count used as removal depth
(splitting at a one-character separator yields one more segment than there
are separator characters). -/
def pathDepth (s : String) : Nat :=
  s.data.count '/' + 1

/-- Insertion step of an ascending lexicographic sort (Python `sorted`). -/
def insertLe (x : String) : List String → List String
  | [] => [x]
  | y :: ys => if x ≤ y then x :: y :: ys else y :: insertLe x ys

/-- Python `sorted(...)` on strings (stable, ascending). -/
def sortStrings : List String → List String
  | [] => []
  | x :: xs => insertLe x (sortStrings xs)

/-- Insertion step of the stable depth-descending sort used by `uninstall`:
`x` goes after every element strictly deeper than it. -/
def insertDeeper (x : String) : List String → List String
  | [] => [x]
  | y :: ys => if pathDepth x < pathDepth y then y :: insertDeeper x ys else x :: y :: ys

/-- `sorted(files, key=lambda x: len(x.split('/')), reverse=True)`:
stable sort by path-segment depth, deepest first. -/
def sortFilesDesc : List String → List String
  | [] => []
  | x :: xs => insertDeeper x (sortFilesDesc xs)

/-- The characters before the first `:` and those after it. -/
def splitFirstColon : List Char → Option (List Char × List Char)
  | [] => none
  | ':' :: rest => some ([], rest)
  | c :: rest => (splitFirstColon rest).map (fun p => (c :: p.1, p.2))

/-- `spec.split(':', 1)`: an `algo:digest` declaration split at the first
colon. (On a string with no colon the Python unpacking would raise; the
model returns an empty digest, a case no declared hash exercises.) -/
def splitHashSpec (spec : String) : String × String :=
  match splitFirstColon spec.data with
  | some (a, d) => (String.mk a, String.mk d)
  | none => (spec, "")

/-! ## Variable expansion: `_expand_with` (spell.py lines 227-233)

The code compiles the pattern (in Python notation) `\$\{([^}]+)\}` and
substitutes with `re.sub`: matches are found left to right,
non-overlapping; a match's key is everything up to the first `}`; defined
keys are replaced by their value, undefined references are kept verbatim. -/

/-- Reading after a `${`: the chars up to the first `}` and the remainder
after it, or `none` when no `}` follows. -/
def splitKey : List Char → Option (List Char × List Char)
  | [] => none
  | '}' :: rest => some ([], rest)
  | c :: rest => (splitKey rest).map (fun p => (c :: p.1, p.2))

/-- The remainder returned by `splitKey` is shorter than the input
(termination measure for the scanner). -/
def splitKey_len : ∀ {l k r : List Char}, splitKey l = some (k, r) →
    r.length < l.length := by
  intro l
  induction l with
  | nil => intro k r h; simp [splitKey] at h
  | cons c rest ih =>
    intro k r h
    by_cases hc : c = '}'
    · subst hc
      simp [splitKey] at h
      obtain ⟨-, h2⟩ := h
      subst h2; simp
    · rw [show splitKey (c :: rest) = (splitKey rest).map (fun p => (c :: p.1, p.2)) by
        cases c; simp [splitKey, hc]] at h
      cases hsk : splitKey rest with
      | none => rw [hsk] at h; simp at h
      | some p =>
        rw [hsk] at h
        simp at h
        obtain ⟨-, h2⟩ := h
        have := ih (k := p.1) (r := p.2) (by rw [hsk])
        subst h2
        simpa using Nat.lt_succ_of_lt this

/-- `env.get(k)` on the expansion environment (first match wins;
dictionary-merge priority is encoded in the list order, see `mergedEnv`). -/
def lookupEnv (env : List (String × String)) (k : List Char) : Option String :=
  (env.find? (fun p => p.1 == String.mk k)).map Prod.snd

/-- The scanner of `_expand_with`: leftmost, non-overlapping matches of
`\$\x7b[^}]+\x7d`; a defined key is replaced by `str(env[k])`, an undefined
reference is kept verbatim, and scanning resumes after the `}`. A `$` that
opens no complete reference is emitted and scanning resumes at the next
character, exactly as the regex engine advances. -/
def expandChars (env : List (String × String)) (l : List Char) : List Char :=
  match l with
  | [] => []
  | '$' :: '{' :: rest =>
    match hsk : splitKey rest with
    | some (k, r) =>
      if k = [] then '$' :: expandChars env ('{' :: rest)
      else
        match lookupEnv env k with
        | some v => v.data ++ expandChars env r
        | none => '$' :: '{' :: (k ++ '}' :: expandChars env r)
    | none => '$' :: expandChars env ('{' :: rest)
  | c :: l2 => c :: expandChars env l2
termination_by l.length
decreasing_by
  all_goals simp
  all_goals have := splitKey_len hsk
  all_goals omega

/-- `_expand_with(env, s)` on Lean strings. (`Recipe.load` additionally
passes the result through `os.path.expandvars`; since the expansion
environment contains the whole process environment, overridden only by the
built-ins and the vars block, a `${...}` reference undefined here is
undefined there too and stays verbatim through that pass as well.) -/
def expandWith (env : List (String × String)) (s : String) : String :=
  String.mk (expandChars env s.data)

/-- The keys of the `${...}` references a string contains, found by the
same scan as `expandChars` (used to state "contains no reference"). -/
def refKeys (l : List Char) : List (List Char) :=
  match l with
  | [] => []
  | '$' :: '{' :: rest =>
    match hsk : splitKey rest with
    | some (k, r) =>
      if k = [] then refKeys ('{' :: rest)
      else k :: refKeys r
    | none => refKeys ('{' :: rest)
  | _ :: l2 => refKeys l2
termination_by l.length
decreasing_by
  all_goals simp
  all_goals have := splitKey_len hsk
  all_goals omega

/-- The expansion environment of `Recipe.load`:
`{**os.environ, **{'name':…, 'version':…}, **data['vars']}` — later sources
override earlier ones, so first-match lookup reads the vars block first,
then the built-ins, then the process environment. -/
def mergedEnv (procEnv varsBlock : List (String × String))
    (name version : String) : List (String × String) :=
  varsBlock ++ [("name", name), ("version", version)] ++ procEnv

/-! ## Registry operations and uninstall (spell.py lines 160-179, 363-368,
482-512) -/

/-- `DB.get(name)`. -/
def dbGet (db : Registry) (name : String) : Option PackageRecord :=
  (db.find? (fun p => p.1 == name)).map Prod.snd

/-- `DB.remove(name)` (dict `pop`; keys of a dict are unique, so removing
every binding of `name` is the same operation). -/
def dbRemove (db : Registry) (name : String) : Registry :=
  db.filter (fun p => !(p.1 == name))

/-- The installed package names (`db.data["installed"].keys()`). -/
def dbKeys (db : Registry) : List String :=
  db.map Prod.fst

/-- `reverse_deps([t])[t]`: the installed packages whose recorded
`runtime_deps` contain `t` (empty for a `t` that is not installed, matching
`rev.get(t, set())`). -/
def revDepsOf (db : Registry) (t : String) : List String :=
  if db.any (fun p => p.1 == t) then
    (db.filter (fun p => memB t p.2.runtime_deps)).map Prod.fst
  else []

/-- The outcome of `uninstall`: the warning return, the `SystemExit` raised
when dependents block the removal (carrying the sorted dependent names of
the message), or the removal with the ordered list of file paths processed. -/
inductive UOutcome where
  | notInstalled
  | blocked (dependents : List String)
  | removed (fileOrder : List String)
deriving DecidableEq

/-- `uninstall(name, force)`: the outcome together with the registry it
leaves behind. The exception paths leave the registry untouched; the
removal path processes the recorded files deepest-first and then deletes
the registry entry. -/
def uninstall (db : Registry) (name : String) (force : Bool) :
    UOutcome × Registry :=
  match dbGet db name with
  | none => (UOutcome.notInstalled, db)
  | some rec =>
    if revDepsOf db name ≠ [] ∧ force = false then
      (UOutcome.blocked (sortStrings (revDepsOf db name)), db)
    else
      (UOutcome.removed (sortFilesDesc rec.files), dbRemove db name)

/-- `find_orphans()`: installed names named in no installed package's
`runtime_deps`, sorted. -/
def find_orphans (db : Registry) : List String :=
  let required := (db.map (fun p => p.2.runtime_deps)).flatten
  sortStrings ((dbKeys db).filter (fun n => !(memB n required)))

/-! ## Fetch and hash verification (spell.py lines 385-416) -/

/-- The externally visible actions of `fetch_sources` for one source. -/
inductive FetchEffect where
  | download (url fn : String)
  | extract (fn : String)
  | clone (url : String) (ref : Option String) (dest : String)
deriving DecidableEq

/-- `verify_hash(path, spec)`: compare the computed digest (a parameter:
the hashing of the file's bytes is external) with the declared one;
a mismatch is the fatal `SystemExit`. -/
def verify_hash (computed : String) (spec : String) : Except String Unit :=
  let algoExp := splitHashSpec spec
  if computed = algoExp.2 then Except.ok ()
  else Except.error ("Hash incorreta: esperado " ++ algoExp.2 ++ ", obtido " ++ computed)

/-- `src.get('filename') or Path(url).name` (an empty filename is falsy). -/
def fnOf (src : SourceSpec) : String :=
  match src.filename with
  | some f => if f = "" then pathName src.url else f
  | none => pathName src.url

/-- The archive suffixes `fetch_sources` auto-extracts. -/
def archiveSuffixes : List String :=
  [".tar.gz", ".tar.xz", ".tar.bz2", ".zip", ".tar", ".tgz", ".tbz",
   ".txz", ".7z", ".gz", ".bz2", ".xz", ".zst"]

/-- `any(fn.endswith(x) for x in [...])` (`endswith` as a suffix test on
the character lists). -/
def isArchiveName (fn : String) : Bool :=
  archiveSuffixes.any (fun s => s.data.isSuffixOf fn.data)

/-- One iteration of the `fetch_sources` loop: the effects performed in
order, and `some msg` when the iteration aborted (`SystemExit`) after them.
The curl branch downloads, then verifies the declared hash if any (aborting
before any extraction on mismatch), then auto-extracts recognized archive
names; the git branch clones; an unknown type aborts. -/
def fetchSourceOne (computedDigest : String) (src : SourceSpec) :
    List FetchEffect × Option String :=
  let t := src.srcType.getD "curl"
  if t = "curl" then
    let fn := fnOf src
    let dl := [FetchEffect.download src.url fn]
    match src.hash with
    | some h =>
      if h = "" then
        (dl ++ (if isArchiveName fn then [FetchEffect.extract fn] else []), none)
      else
        match verify_hash computedDigest h with
        | Except.error e => (dl, some e)
        | Except.ok _ =>
          (dl ++ (if isArchiveName fn then [FetchEffect.extract fn] else []), none)
    | none =>
      (dl ++ (if isArchiveName fn then [FetchEffect.extract fn] else []), none)
  else if t = "git" then
    let gdest := match src.dir with
      | some d => if d = "" then stemOf src.url else d
      | none => stemOf src.url
    ([FetchEffect.clone src.url src.ref gdest], none)
  else ([], some ("Fonte desconhecida: " ++ t))

/-! ## Build-root selection (spell.py lines 419-422) -/

/-- A directory entry as `srcdir.iterdir()` yields it. -/
structure DirEntry where
  name : String
  isDir : Bool
deriving DecidableEq

/-- `[p for p in srcdir.iterdir() if p.is_dir() and not p.name.startswith('.')]`. -/
def nonHiddenDirs (entries : List DirEntry) : List DirEntry :=
  entries.filter (fun e => e.isDir && !(e.name.startsWith "."))

/-- `pick_build_root`: the unique non-hidden subdirectory if there is
exactly one, else the source directory itself. -/
def pick_build_root (srcdir : String) (entries : List DirEntry) : String :=
  match nonHiddenDirs entries with
  | [e] => srcdir ++ "/" ++ e.name
  | _ => srcdir

/-! ## Dependency resolution: `topo_sort` (spell.py lines 332-360)

The code builds `graph[r.name] = set(runtime_deps) | set(build_deps)` over
all recipes, computes `needed` by a depth-first search from the requested
names (skipping names with no recipe), restricts the graph to `needed`,
and runs Kahn's algorithm with a FIFO queue, silently stopping when the
queue empties. -/

/-- `n in recipes` (the recipe map's keys are the recipe names). -/
def hasRecipe (recipes : List Recipe) (n : String) : Bool :=
  recipes.any (fun r => r.name == n)

/-- `graph.get(n, [])`: the union `set(runtime_deps) | set(build_deps)` of
`n`'s recipe, as a duplicate-free list ([] for an unknown name). -/
def depsOf (recipes : List Recipe) (n : String) : List String :=
  match recipes.find? (fun r => r.name == n) with
  | some r => (r.runtime_deps ++ r.build_deps).dedup
  | none => []

/-- Recipe names not yet visited (termination measure of the dfs). -/
def unvisited (recipes : List Recipe) (needed : List String) : Nat :=
  ((recipes.map Recipe.name).dedup.filter (fun x => !(memB x needed))).length

/-- A filter with a pointwise-stronger predicate that loses a definite
element of the list is strictly shorter. -/
def filter_length_lt : ∀ {α : Type} (P Q : α → Bool) (l : List α) (n : α),
    (∀ x, P x = true → Q x = true) → n ∈ l → Q n = true → P n = false →
    (l.filter P).length < (l.filter Q).length := by
  intro α P Q l n hmono hn hQ hP
  induction l with
  | nil => simp at hn
  | cons b t ih =>
    have hle : (t.filter P).length ≤ (t.filter Q).length := by
      rw [← List.countP_eq_length_filter, ← List.countP_eq_length_filter]
      exact List.countP_mono_left (fun x _ hx => hmono x hx)
    rcases List.mem_cons.mp hn with hb | hb
    · subst hb
      simp only [List.filter_cons, hP, hQ]
      simpa using Nat.lt_succ_of_le hle
    · by_cases hPb : P b = true
      · have hQb := hmono b hPb
        simp only [List.filter_cons, hPb, hQb]
        simpa using ih hb
      · rw [Bool.not_eq_true] at hPb
        by_cases hQb : Q b = true
        · simp [List.filter_cons, hPb, hQb]
          have := ih hb
          omega
        · rw [Bool.not_eq_true] at hQb
          simp only [List.filter_cons, hPb, hQb, Bool.false_eq_true, if_false]
          exact ih hb

/-- Visiting a fresh recipe name strictly shrinks the unvisited count. -/
def unvisited_append_lt : ∀ (recipes : List Recipe) (needed : List String)
    (n : String), hasRecipe recipes n = true → memB n needed = false →
    unvisited recipes (needed ++ [n]) < unvisited recipes needed := by
  intro recipes needed n hr hm
  have hn : n ∈ (recipes.map Recipe.name).dedup := by
    simp only [hasRecipe, List.any_eq_true, beq_iff_eq] at hr
    obtain ⟨r, hr1, hr2⟩ := hr
    rw [List.mem_dedup, List.mem_map]
    exact ⟨r, hr1, hr2⟩
  have hsplit : ∀ (x : String), memB x (needed ++ [n]) = (memB x needed || (n == x)) := by
    intro x
    simp [memB, List.any_append]
  refine filter_length_lt _ _ _ n ?_ hn ?_ ?_
  · intro x hx
    rw [Bool.not_eq_true'] at hx ⊢
    rw [hsplit] at hx
    exact (Bool.or_eq_false_iff.mp hx).1
  · rw [Bool.not_eq_true']
    exact hm
  · rw [Bool.not_eq_false']
    rw [hsplit]
    simp

/-- The recursive `dfs` of `topo_sort` as an explicit worklist: pop a name;
if it has a recipe and is unvisited, record it and push its dependencies
(this is exactly the call `dfs(d)` for each dependency, in order); else
skip it. `topo_sort`'s top-level loop `for n in reqs: if n in recipes:
dfs(n)` is the same worklist run started on the request list. -/
def dfsRun (recipes : List Recipe) : List String → List String → List String
  | [], needed => needed
  | n :: stack, needed =>
    if hasRecipe recipes n && !(memB n needed) then
      dfsRun recipes (depsOf recipes n ++ stack) (needed ++ [n])
    else
      dfsRun recipes stack needed
termination_by stack needed => (unvisited recipes needed, stack.length)
decreasing_by
  · apply Prod.Lex.left
    rename_i h
    rw [Bool.and_eq_true] at h
    refine unvisited_append_lt recipes needed n h.1 ?_
    rcases h with ⟨-, h2⟩
    rw [Bool.not_eq_true'] at h2
    exact h2
  · apply Prod.Lex.right
    simp

/-- The set `needed` of `topo_sort` (in dfs discovery order). -/
def topoNeeded (recipes : List Recipe) (reqs : List String) : List String :=
  dfsRun recipes reqs []

/-- `subg[n] = graph.get(n, set()) & needed`. -/
def subgOf (recipes : List Recipe) (needed : List String) (n : String) :
    List String :=
  (depsOf recipes n).filter (fun d => memB d needed)

/-- Pointwise update of the in-degree table (`indeg[m] = v`). -/
def updf (g : String → Int) (m : String) (v : Int) : String → Int :=
  fun x => if x = m then v else g x

/-- The inner `for m in subg:` loop of one Kahn iteration after popping
`n`: every `m` with `n in subg[m]` has its in-degree decremented, and is
appended to the queue when the new in-degree is zero. -/
def kahnBody (subgD : String → List String) (n : String) :
    List String → List String × (String → Int) → List String × (String → Int)
  | [], st => st
  | m :: ms, st =>
    if memB n (subgD m) then
      kahnBody subgD n ms
        ((if st.2 m - 1 = 0 then st.1 ++ [m] else st.1), updf st.2 m (st.2 m - 1))
    else
      kahnBody subgD n ms st

/-- Total nonnegative in-degree over the node list (termination measure of
the Kahn loop). -/
def sumT (nodes : List String) (g : String → Int) : Nat :=
  (nodes.map (fun m => (g m).toNat)).sum

/-- A pointwise `toNat`-smaller table has a no-larger total. -/
def sumT_mono : ∀ (nodes : List String) (g g' : String → Int),
    (∀ x, (g' x).toNat ≤ (g x).toNat) → sumT nodes g' ≤ sumT nodes g := by
  intro nodes g g' h
  induction nodes with
  | nil => simp [sumT]
  | cons m ms ih =>
    simp only [sumT, List.map_cons, List.sum_cons]
    exact Nat.add_le_add (h m) ih

/-- Decrementing a listed, positive entry strictly drops the total. -/
def sumT_update_lt : ∀ (nodes : List String) (g : String → Int) (m : String),
    m ∈ nodes → 1 ≤ g m →
    sumT nodes (updf g m (g m - 1)) + 1 ≤ sumT nodes g := by
  intro nodes g m hm hpos
  induction nodes with
  | nil => simp at hm
  | cons b ms ih =>
    have hpt : ∀ x, ((updf g m (g m - 1)) x).toNat ≤ (g x).toNat := by
      intro x
      unfold updf
      by_cases hx : x = m
      · subst hx; simp only [if_pos rfl]; omega
      · simp [hx]
    by_cases hbm : b = m
    · subst hbm
      simp only [sumT, List.map_cons, List.sum_cons]
      have h1 : ((updf g b (g b - 1)) b).toNat + 1 ≤ (g b).toNat := by
        unfold updf; simp; omega
      have h2 := sumT_mono ms g (updf g b (g b - 1)) hpt
      simp only [sumT] at h2
      omega
    · have hb : m ∈ ms := by
        rcases List.mem_cons.mp hm with h | h
        · exact absurd h.symm hbm
        · exact h
      simp only [sumT, List.map_cons, List.sum_cons]
      have h1 : ((updf g m (g m - 1)) b).toNat = (g b).toNat := by
        unfold updf; simp [hbm]
      have h2 := ih hb
      simp only [sumT] at h2
      omega

/-- A non-listed or non-positive decrement never raises the total. -/
def sumT_update_le : ∀ (nodes : List String) (g : String → Int) (m : String),
    sumT nodes (updf g m (g m - 1)) ≤ sumT nodes g := by
  intro nodes g m
  refine sumT_mono nodes g _ ?_
  intro x
  unfold updf
  by_cases hx : x = m
  · subst hx; simp only [if_pos rfl]; omega
  · simp [hx]

/-- One `kahnBody` pass over nodes drawn from `nodes0` never increases the
measure `queue length + total in-degree`. -/
def kahnBody_measure : ∀ (subgD : String → List String) (n : String)
    (nodes0 ms : List String) (st : List String × (String → Int)),
    (∀ m, m ∈ ms → m ∈ nodes0) →
    (kahnBody subgD n ms st).1.length + sumT nodes0 (kahnBody subgD n ms st).2 ≤
      st.1.length + sumT nodes0 st.2 := by
  intro subgD n nodes0 ms
  induction ms with
  | nil => intro st _; simp [kahnBody]
  | cons m ms ih =>
    intro st hmem
    by_cases hm : memB n (subgD m) = true
    · rw [show kahnBody subgD n (m :: ms) st = kahnBody subgD n ms
          ((if st.2 m - 1 = 0 then st.1 ++ [m] else st.1),
            updf st.2 m (st.2 m - 1)) by simp [kahnBody, hm]]
      refine le_trans (ih _ (fun x hx => hmem x (List.mem_cons_of_mem _ hx))) ?_
      by_cases hz : st.2 m - 1 = 0
      · have hpos : 1 ≤ st.2 m := by omega
        have := sumT_update_lt nodes0 st.2 m (hmem m (List.mem_cons_self _ _)) hpos
        simp only [if_pos hz, List.length_append, List.length_cons, List.length_nil]
        omega
      · have := sumT_update_le nodes0 st.2 m
        simp only [if_neg hz]
        omega
    · rw [show kahnBody subgD n (m :: ms) st = kahnBody subgD n ms st by
        simp [kahnBody, hm]]
      exact ih st (fun x hx => hmem x (List.mem_cons_of_mem _ hx))

/-- The `while q:` loop of Kahn's algorithm: pop the queue's head, append
it to the output, run the inner loop over all nodes, repeat until the
queue is empty (the code checks for no leftover nodes nowhere: when the
queue empties the current output is returned as it stands). -/
def kahnLoop (nodes : List String) (subgD : String → List String) :
    List String → List String → (String → Int) → List String
  | [], out, _ => out
  | n :: qrest, out, indeg =>
    kahnLoop nodes subgD (kahnBody subgD n nodes (qrest, indeg)).1 (out ++ [n])
      (kahnBody subgD n nodes (qrest, indeg)).2
termination_by q out indeg => q.length + sumT nodes indeg
decreasing_by
  have := kahnBody_measure subgD n nodes nodes (qrest, indeg) (fun x hx => hx)
  dsimp only at this ⊢
  simp only [List.length_cons]
  omega

/-- `topo_sort(reqs, recipes)`: the needed set, the restricted graph, the
initial in-degrees and zero-in-degree queue, then the Kahn loop. -/
def topoSort (reqs : List String) (recipes : List Recipe) : List String :=
  let needed := topoNeeded recipes reqs
  let subgD := subgOf recipes needed
  let indeg0 : String → Int := fun n => ((subgD n).length : Int)
  let q0 := needed.filter (fun n => indeg0 n == 0)
  kahnLoop needed subgD q0 [] indeg0

/-- `a` occurs at a strictly earlier position than `b` in `l`. -/
def precedes (l : List String) (a b : String) : Prop :=
  ∃ i j : Nat, i < j ∧ l.get? i = some a ∧ l.get? j = some b

/-- The invariant of the Kahn loop state: the queue and output are
duplicate-free node subsets, the in-degree of every node counts its
not-yet-output restricted dependencies, queued nodes have all their
restricted dependencies output already, and every output node's restricted
dependencies precede it in the output. -/
structure KInv (nodes : List String) (subgD : String → List String)
    (q out : List String) (indeg : String → Int) : Prop where
  q_nd : q.Nodup
  out_nd : out.Nodup
  disj : ∀ x, x ∈ q → x ∉ out
  q_sub : ∀ x, x ∈ q → x ∈ nodes
  out_sub : ∀ x, x ∈ out → x ∈ nodes
  deg : ∀ m, m ∈ nodes →
    indeg m = (((subgD m).filter (fun a => !(memB a out))).length : Int)
  q_ready : ∀ b, b ∈ q → ∀ a, a ∈ subgD b → a ∈ out
  out_ord : ∀ b, b ∈ out → ∀ a, a ∈ subgD b → precedes out a b

/-! ## Concrete data for witnesses and counterexamples -/

/-- A recipe with only identity and dependencies filled in. -/
def mkRecipe (n : String) (rdeps bdeps : List String) : Recipe :=
  { name := n, version := "1", vars := [], source := [], patches := [],
    build := [], install := [], runtime_deps := rdeps, build_deps := bdeps,
    provides := [], path := n ++ ".yml" }

/-- The spec's example map `{a: deps=[], b: deps=[a], c: deps=[a,b]}`. -/
def demoRecipes : List Recipe :=
  [mkRecipe "a" [] [], mkRecipe "b" ["a"] [], mkRecipe "c" ["a", "b"] []]

/-- The spec's cyclic example `x→y→x`. -/
def cycRecipes : List Recipe :=
  [mkRecipe "x" ["y"] [], mkRecipe "y" ["x"] []]

/-- A registry record with only identity, files and runtime deps. -/
def mkRecord (n : String) (files rdeps : List String) : PackageRecord :=
  { name := n, version := "1", files := files, runtime_deps := rdeps,
    build_deps := [], provides := [] }

/-- A registry where `q` depends on `p` (the spec's uninstall example). -/
def demoDb : Registry :=
  [("p", mkRecord "p" ["/usr/lib/libp.so", "/usr/share/p/doc.txt", "/usr"] []),
   ("q", mkRecord "q" ["/usr/bin/q"] ["p"])]

/-- The environment of the idempotence counterexample: the value of `A` is
the two characters `$` and `{`; no value contains a complete reference. -/
def envCex : List (String × String) := [("A", "$\x7b"), ("B", "y")]

/-- The string of the idempotence counterexample (the six characters of
`x${A}B}`: a reference to `A` followed by `B` and a stray `}`). -/
def sCex : String := "x${A}B\x7d"

/-! ## Utility lemmas -/

theorem memB_iff {x : String} {l : List String} : memB x l = true ↔ x ∈ l := by
  simp [memB]

theorem memB_false_iff {x : String} {l : List String} :
    memB x l = false ↔ x ∉ l := by
  rw [← Bool.not_eq_true, not_iff_not]
  exact memB_iff

theorem insertLe_mem {x y : String} : ∀ {l : List String},
    y ∈ insertLe x l ↔ y = x ∨ y ∈ l := by
  intro l
  induction l with
  | nil => simp [insertLe]
  | cons z zs ih =>
    by_cases h : x ≤ z
    · simp [insertLe, h]
    · simp only [insertLe, if_neg h, List.mem_cons, ih]
      tauto

theorem sortStrings_mem {y : String} : ∀ {l : List String},
    y ∈ sortStrings l ↔ y ∈ l := by
  intro l
  induction l with
  | nil => simp [sortStrings]
  | cons x xs ih =>
    simp only [sortStrings, insertLe_mem, ih, List.mem_cons]

theorem insertDeeper_perm (x : String) : ∀ (l : List String),
    List.Perm (insertDeeper x l) (x :: l) := by
  intro l
  induction l with
  | nil => simp [insertDeeper]
  | cons y ys ih =>
    by_cases h : pathDepth x < pathDepth y
    · simp only [insertDeeper, if_pos h]
      exact (ih.cons y).trans (List.Perm.swap x y ys)
    · simp [insertDeeper, if_neg h]

theorem sortFilesDesc_perm : ∀ (l : List String),
    List.Perm (sortFilesDesc l) l := by
  intro l
  induction l with
  | nil => simp [sortFilesDesc]
  | cons x xs ih =>
    exact (insertDeeper_perm x (sortFilesDesc xs)).trans (ih.cons x)

theorem insertDeeper_mem {x y : String} {l : List String} :
    y ∈ insertDeeper x l ↔ y = x ∨ y ∈ l := by
  constructor
  · intro h
    have := (insertDeeper_perm x l).mem_iff.mp h
    simpa using this
  · intro h
    apply (insertDeeper_perm x l).mem_iff.mpr
    simpa using h

theorem insertDeeper_pairwise {x : String} : ∀ {l : List String},
    l.Pairwise (fun a b => pathDepth b ≤ pathDepth a) →
    (insertDeeper x l).Pairwise (fun a b => pathDepth b ≤ pathDepth a) := by
  intro l
  induction l with
  | nil => intro _; simp [insertDeeper]
  | cons y ys ih =>
    intro hp
    rw [List.pairwise_cons] at hp
    obtain ⟨hy, hys⟩ := hp
    by_cases h : pathDepth x < pathDepth y
    · simp only [insertDeeper, if_pos h]
      rw [List.pairwise_cons]
      refine ⟨?_, ih hys⟩
      intro b hb
      rcases insertDeeper_mem.mp hb with rfl | hb
      · omega
      · exact hy b hb
    · simp only [insertDeeper, if_neg h]
      rw [List.pairwise_cons]
      refine ⟨?_, by rw [List.pairwise_cons]; exact ⟨hy, hys⟩⟩
      intro b hb
      rcases List.mem_cons.mp hb with rfl | hb
      · omega
      · have := hy b hb
        omega

theorem sortFilesDesc_sorted : ∀ (l : List String),
    (sortFilesDesc l).Pairwise (fun a b => pathDepth b ≤ pathDepth a) := by
  intro l
  induction l with
  | nil => simp [sortFilesDesc]
  | cons x xs ih => exact insertDeeper_pairwise ih

/-! ## Registry lemmas -/

theorem dbGet_any {db : Registry} {p : String} {rec : PackageRecord}
    (h : dbGet db p = some rec) : db.any (fun e => e.1 == p) = true := by
  unfold dbGet at h
  cases hf : db.find? (fun e => e.1 == p) with
  | none => rw [hf] at h; simp at h
  | some e =>
    rw [List.any_eq_true]
    refine ⟨e, List.mem_of_find?_eq_some hf, ?_⟩
    have := List.find?_some hf
    simpa using this

theorem dbGet_remove_self (db : Registry) (p : String) :
    dbGet (dbRemove db p) p = none := by
  unfold dbGet dbRemove
  rw [show (List.find? (fun e => e.1 == p)
      (db.filter (fun e => !(e.1 == p)))) = none from ?_]
  · rfl
  · rw [List.find?_eq_none]
    intro e he
    have := (List.mem_filter.mp he).2
    simp only [Bool.not_eq_true'] at this
    simp [this]

theorem dbGet_remove_other {db : Registry} {p x : String} (hx : x ≠ p) :
    dbGet (dbRemove db p) x = dbGet db x := by
  unfold dbGet dbRemove
  congr 1
  induction db with
  | nil => rfl
  | cons e es ih =>
    by_cases hep : e.1 = p
    · have h1 : (e.1 == p) = true := by simp [hep]
      have h2 : (e.1 == x) = false := by
        simp only [beq_eq_false_iff_ne, ne_eq]
        rw [hep]
        exact fun h => hx h.symm
      simp only [List.filter_cons, h1, Bool.not_true, Bool.false_eq_true, if_false,
        List.find?_cons, h2]
      exact ih
    · have h1 : (e.1 == p) = false := by simp [hep]
      simp only [List.filter_cons, h1, Bool.not_false, if_true, List.find?_cons]
      cases hex : (e.1 == x) with
      | true => rfl
      | false => exact ih

/-! ## Claim C7: orphan detection -/

/-- C7: `find_orphans()` returns exactly the installed package names that
occur in no installed package's recorded `runtime_deps`: a name is in the
result iff it is an installed key and every installed record's
`runtime_deps` avoid it. -/
theorem find_orphans_spec (db : Registry) (n : String) :
    n ∈ find_orphans db ↔
      (n ∈ dbKeys db ∧ ∀ e ∈ db, n ∉ e.2.runtime_deps) := by
  unfold find_orphans
  rw [sortStrings_mem, List.mem_filter]
  apply and_congr_right
  intro _
  rw [Bool.not_eq_eq_eq_not, Bool.not_true, memB_false_iff, List.mem_flatten]
  simp only [List.mem_map]
  constructor
  · intro h e he hn
    exact h ⟨_, ⟨e, he, rfl⟩, hn⟩
  · rintro h ⟨l, ⟨e, he, rfl⟩, hn⟩
    exact h e he hn

/-! ## Claim C8: uninstall processes files deepest-first -/

/-- C8: during uninstall of an installed package, the recorded file paths
are processed in descending path-segment depth: the processed order is
pairwise depth-non-increasing (so any path with more segments is removed
no later than one with fewer), and is a permutation of the recorded files. -/
theorem uninstall_depth_order (db : Registry) (name : String) (force : Bool)
    (rec : PackageRecord) (ord : List String) (reg : Registry)
    (hrec : dbGet db name = some rec)
    (ho : uninstall db name force = (UOutcome.removed ord, reg)) :
    ord.Pairwise (fun a b => pathDepth b ≤ pathDepth a) ∧
    List.Perm ord rec.files := by
  have hu : uninstall db name force =
      (if revDepsOf db name ≠ [] ∧ force = false then
        (UOutcome.blocked (sortStrings (revDepsOf db name)), db)
      else (UOutcome.removed (sortFilesDesc rec.files), dbRemove db name)) := by
    simp only [uninstall, hrec]
  rw [hu] at ho
  by_cases hc : revDepsOf db name ≠ [] ∧ force = false
  · rw [if_pos hc] at ho
    simp at ho
  · rw [if_neg hc] at ho
    have hord : sortFilesDesc rec.files = ord := by
      have := congrArg Prod.fst ho
      simpa using this
    rw [← hord]
    exact ⟨sortFilesDesc_sorted _, sortFilesDesc_perm _⟩

/-- Witness for C8 at a concrete registry: removing `p` (forced) processes
its three recorded files deepest-first. -/
theorem uninstall_depth_order_witness :
    dbGet demoDb "p" =
      some (mkRecord "p" ["/usr/lib/libp.so", "/usr/share/p/doc.txt", "/usr"] []) ∧
    uninstall demoDb "p" true =
      (UOutcome.removed ["/usr/share/p/doc.txt", "/usr/lib/libp.so", "/usr"],
        dbRemove demoDb "p") ∧
    (List.Pairwise (fun a b => pathDepth b ≤ pathDepth a)
        ["/usr/share/p/doc.txt", "/usr/lib/libp.so", "/usr"] ∧
      List.Perm ["/usr/share/p/doc.txt", "/usr/lib/libp.so", "/usr"]
        (mkRecord "p" ["/usr/lib/libp.so", "/usr/share/p/doc.txt", "/usr"] []).files) :=
  ⟨by decide, by decide,
    uninstall_depth_order demoDb "p" true
      (mkRecord "p" ["/usr/lib/libp.so", "/usr/share/p/doc.txt", "/usr"] [])
      ["/usr/share/p/doc.txt", "/usr/lib/libp.so", "/usr"]
      (dbRemove demoDb "p") (by decide) (by decide)⟩

/-! ## Claim C10: build-root selection -/

/-- C10: build-root selection counts only non-hidden top-level directories:
exactly one such subdirectory selects it, any other count selects the
source directory itself. -/
theorem pick_build_root_spec (srcdir : String) (entries : List DirEntry) :
    (∀ e, nonHiddenDirs entries = [e] →
      pick_build_root srcdir entries = srcdir ++ "/" ++ e.name) ∧
    ((nonHiddenDirs entries).length ≠ 1 →
      pick_build_root srcdir entries = srcdir) := by
  constructor
  · intro e he
    unfold pick_build_root
    rw [he]
  · intro hne
    unfold pick_build_root
    cases h : nonHiddenDirs entries with
    | nil => rfl
    | cons e es =>
      cases es with
      | nil => exact absurd (by rw [h]; rfl) hne
      | cons f fs => rfl

/-! ## Claim C3: uninstall reverse-dependency guard -/

/-- C3: for an installed package `p` with another installed package `q`
whose recorded `runtime_deps` contain `p`: without force, `uninstall p`
fails with the dependents error naming `q` and leaves the registry
unchanged; with force it removes exactly `p`'s registry entry, every other
entry (in particular each dependent's) being unchanged. -/
theorem uninstall_guard (db : Registry) (p q : String)
    (recP rq : PackageRecord) (hp : dbGet db p = some recP)
    (hq : (q, rq) ∈ db) (hdep : p ∈ rq.runtime_deps) (hqp : q ≠ p) :
    (∃ deps, uninstall db p false = (UOutcome.blocked deps, db) ∧ q ∈ deps) ∧
    (∃ ord, (uninstall db p true).1 = UOutcome.removed ord) ∧
    dbGet (uninstall db p true).2 p = none ∧
    (∀ x, x ≠ p → dbGet (uninstall db p true).2 x = dbGet db x) := by
  have hrev : q ∈ revDepsOf db p := by
    unfold revDepsOf
    rw [if_pos (dbGet_any hp)]
    rw [List.mem_map]
    refine ⟨(q, rq), ?_, rfl⟩
    rw [List.mem_filter]
    exact ⟨hq, memB_iff.mpr hdep⟩
  have hne : revDepsOf db p ≠ [] := List.ne_nil_of_mem hrev
  have hforce : uninstall db p true =
      (UOutcome.removed (sortFilesDesc recP.files), dbRemove db p) := by
    simp only [uninstall, hp]
    rw [if_neg (by simp)]
  refine ⟨?_, ?_, ?_, ?_⟩
  · refine ⟨sortStrings (revDepsOf db p), ?_, sortStrings_mem.mpr hrev⟩
    simp only [uninstall, hp]
    rw [if_pos ⟨hne, by trivial⟩]
  · rw [hforce]
    exact ⟨_, rfl⟩
  · rw [hforce]
    exact dbGet_remove_self db p
  · intro x hx
    rw [hforce]
    exact dbGet_remove_other hx

/-- Witness for C3 at the registry where `q` depends on `p`. -/
theorem uninstall_guard_witness :
    dbGet demoDb "p" =
      some (mkRecord "p" ["/usr/lib/libp.so", "/usr/share/p/doc.txt", "/usr"] []) ∧
    ("q", mkRecord "q" ["/usr/bin/q"] ["p"]) ∈ demoDb ∧
    "p" ∈ (mkRecord "q" ["/usr/bin/q"] ["p"]).runtime_deps ∧
    ((∃ deps, uninstall demoDb "p" false = (UOutcome.blocked deps, demoDb) ∧
        "q" ∈ deps) ∧
      (∃ ord, (uninstall demoDb "p" true).1 = UOutcome.removed ord) ∧
      dbGet (uninstall demoDb "p" true).2 "p" = none ∧
      (∀ x, x ≠ "p" → dbGet (uninstall demoDb "p" true).2 x = dbGet demoDb x)) :=
  ⟨by decide, by decide, by decide,
    uninstall_guard demoDb "p" "q"
      (mkRecord "p" ["/usr/lib/libp.so", "/usr/share/p/doc.txt", "/usr"] [])
      (mkRecord "q" ["/usr/bin/q"] ["p"])
      (by decide) (by decide) (by decide) (by decide)⟩

/-! ## Claim C6: hash verification gates extraction -/

/-- C6: for a curl source carrying a declared hash, the fetch stage
verifies the digest after downloading and before any extraction: a
mismatching digest aborts the operation (an error is reported and no
extract effect is performed, only the download); a matching digest
proceeds, and for an archive-shaped filename the extraction is performed
(after the download). -/
theorem fetch_hash_gate (dig : String) (src : SourceSpec) (h : String)
    (ht : src.srcType.getD "curl" = "curl") (hh : src.hash = some h)
    (h0 : h ≠ "") :
    (dig ≠ (splitHashSpec h).2 →
      fetchSourceOne dig src =
        ([FetchEffect.download src.url (fnOf src)],
          some ("Hash incorreta: esperado " ++ (splitHashSpec h).2 ++
            ", obtido " ++ dig))) ∧
    (dig = (splitHashSpec h).2 →
      (fetchSourceOne dig src).2 = none ∧
      (fetchSourceOne dig src).1 =
        FetchEffect.download src.url (fnOf src) ::
          (if isArchiveName (fnOf src) then [FetchEffect.extract (fnOf src)] else [])) := by
  have hbase : fetchSourceOne dig src =
      (match verify_hash dig h with
        | Except.error e => ([FetchEffect.download src.url (fnOf src)], some e)
        | Except.ok _ =>
          ([FetchEffect.download src.url (fnOf src)] ++
            (if isArchiveName (fnOf src) then [FetchEffect.extract (fnOf src)] else []),
            none)) := by
    unfold fetchSourceOne
    rw [ht, if_pos rfl, hh]
    dsimp only
    rw [if_neg h0]
  constructor
  · intro hne
    rw [hbase]
    unfold verify_hash
    rw [if_neg hne]
  · intro heq
    rw [hbase]
    unfold verify_hash
    rw [if_pos heq]
    exact ⟨rfl, rfl⟩

/-- Witness for C6: a concrete tarball source with a declared sha256; a
wrong digest aborts with only the download performed, the right digest
extracts. -/
theorem fetch_hash_gate_witness :
    ((⟨some "curl", "https://ex.org/z-1.tar.gz", some "z-1.tar.gz",
        some "sha256:abcd", none, none⟩ : SourceSpec).srcType.getD "curl" = "curl" ∧
      (⟨some "curl", "https://ex.org/z-1.tar.gz", some "z-1.tar.gz",
        some "sha256:abcd", none, none⟩ : SourceSpec).hash = some "sha256:abcd" ∧
      ("sha256:abcd" : String) ≠ "") ∧
    (("ffff" ≠ (splitHashSpec "sha256:abcd").2 →
      fetchSourceOne "ffff"
        ⟨some "curl", "https://ex.org/z-1.tar.gz", some "z-1.tar.gz",
          some "sha256:abcd", none, none⟩ =
        ([FetchEffect.download "https://ex.org/z-1.tar.gz"
            (fnOf ⟨some "curl", "https://ex.org/z-1.tar.gz", some "z-1.tar.gz",
              some "sha256:abcd", none, none⟩)],
          some ("Hash incorreta: esperado " ++ (splitHashSpec "sha256:abcd").2 ++
            ", obtido " ++ "ffff"))) ∧
    ("ffff" = (splitHashSpec "sha256:abcd").2 →
      (fetchSourceOne "ffff"
        ⟨some "curl", "https://ex.org/z-1.tar.gz", some "z-1.tar.gz",
          some "sha256:abcd", none, none⟩).2 = none ∧
      (fetchSourceOne "ffff"
        ⟨some "curl", "https://ex.org/z-1.tar.gz", some "z-1.tar.gz",
          some "sha256:abcd", none, none⟩).1 =
        FetchEffect.download "https://ex.org/z-1.tar.gz"
          (fnOf ⟨some "curl", "https://ex.org/z-1.tar.gz", some "z-1.tar.gz",
            some "sha256:abcd", none, none⟩) ::
          (if isArchiveName (fnOf ⟨some "curl", "https://ex.org/z-1.tar.gz",
              some "z-1.tar.gz", some "sha256:abcd", none, none⟩) then
            [FetchEffect.extract (fnOf ⟨some "curl", "https://ex.org/z-1.tar.gz",
              some "z-1.tar.gz", some "sha256:abcd", none, none⟩)] else []))) :=
  ⟨⟨rfl, rfl, by decide⟩,
    fetch_hash_gate "ffff"
      ⟨some "curl", "https://ex.org/z-1.tar.gz", some "z-1.tar.gz",
        some "sha256:abcd", none, none⟩ "sha256:abcd" rfl rfl (by decide)⟩

/-! ## Expansion lemmas: the behaviour of the `_expand_with` scanner -/

theorem expandChars_nil (env : List (String × String)) : expandChars env [] = [] := by
  simp [expandChars]

theorem expandChars_cons_ne (env : List (String × String)) (c : Char) (l : List Char)
    (hc : c ≠ '$') : expandChars env (c :: l) = c :: expandChars env l := by
  rw [expandChars.eq_def]
  split
  · rename_i heq
    exact absurd heq (by simp)
  · rename_i rest heq
    injection heq with h1 h2
    exact absurd h1 hc
  · rename_i c2 l2 hcond heq
    injection heq with h1 h2
    subst h1
    subst h2
    rfl

theorem expandChars_dollar (env : List (String × String)) (l : List Char)
    (hl : l.head? ≠ some '{') :
    expandChars env ('$' :: l) = '$' :: expandChars env l := by
  rw [expandChars.eq_def]
  split
  · rename_i heq
    exact absurd heq (by simp)
  · rename_i rest heq
    injection heq with h1 h2
    exact absurd (by rw [h2]; rfl) hl
  · rename_i c2 l2 hcond heq
    injection heq with h1 h2
    subst h1
    subst h2
    rfl

theorem expandChars_ref (env : List (String × String)) (rest k r : List Char)
    (hsk : splitKey rest = some (k, r)) (hk : k ≠ []) :
    expandChars env ('$' :: '{' :: rest) =
      (match lookupEnv env k with
       | some v => v.data ++ expandChars env r
       | none => '$' :: '{' :: (k ++ '}' :: expandChars env r)) := by
  rw [expandChars.eq_def]
  split
  · rename_i heq
    exact absurd heq (by simp)
  · rename_i rest2 heq
    injection heq with h1 h2
    injection h2 with h3 h4
    subst h4
    rw [hsk]
    simp only [if_neg hk]
  · rename_i c2 l2 hcond heq
    injection heq with h1 h2
    exact (hcond _ h1.symm h2.symm).elim

theorem expandChars_empty_key (env : List (String × String)) (rest r : List Char)
    (hsk : splitKey rest = some ([], r)) :
    expandChars env ('$' :: '{' :: rest) = '$' :: expandChars env ('{' :: rest) := by
  rw [expandChars.eq_def]
  split
  · rename_i heq
    exact absurd heq (by simp)
  · rename_i rest2 heq
    injection heq with h1 h2
    injection h2 with h3 h4
    subst h4
    rw [hsk]
    simp
  · rename_i c2 l2 hcond heq
    injection heq with h1 h2
    exact (hcond _ h1.symm h2.symm).elim

theorem expandChars_no_close (env : List (String × String)) (rest : List Char)
    (hsk : splitKey rest = none) :
    expandChars env ('$' :: '{' :: rest) = '$' :: expandChars env ('{' :: rest) := by
  rw [expandChars.eq_def]
  split
  · rename_i heq
    exact absurd heq (by simp)
  · rename_i rest2 heq
    injection heq with h1 h2
    injection h2 with h3 h4
    subst h4
    rw [hsk]
  · rename_i c2 l2 hcond heq
    injection heq with h1 h2
    exact (hcond _ h1.symm h2.symm).elim

theorem expandChars_cons_nomatch (env : List (String × String)) (c : Char)
    (l2 : List Char)
    (hcond : ∀ (rest : List Char), c = '$' → l2 = '{' :: rest → False) :
    expandChars env (c :: l2) = c :: expandChars env l2 := by
  by_cases hc : c = '$'
  · subst hc
    refine expandChars_dollar env l2 ?_
    intro hl2
    cases l2 with
    | nil => simp at hl2
    | cons d l3 =>
      simp at hl2
      exact hcond l3 rfl (by rw [hl2])
  · exact expandChars_cons_ne env c l2 hc

theorem splitKey_decomp : ∀ {l k r : List Char}, splitKey l = some (k, r) →
    l = k ++ '}' :: r ∧ '}' ∉ k := by
  intro l
  induction l with
  | nil => intro k r h; simp [splitKey] at h
  | cons c rest ih =>
    intro k r h
    by_cases hc : c = '}'
    · subst hc
      simp [splitKey] at h
      obtain ⟨h1, h2⟩ := h
      subst h1; subst h2
      simp
    · rw [show splitKey (c :: rest) = (splitKey rest).map (fun p => (c :: p.1, p.2)) by
        cases c; simp [splitKey, hc]] at h
      cases hsk : splitKey rest with
      | none => rw [hsk] at h; simp at h
      | some p =>
        rw [hsk] at h
        simp at h
        obtain ⟨h1, h2⟩ := h
        obtain ⟨ih1, ih2⟩ := ih (k := p.1) (r := p.2) (by rw [hsk])
        subst h1; subst h2
        constructor
        · rw [ih1]; simp
        · simp only [List.mem_cons]
          rintro (rfl | hmem)
          · exact hc rfl
          · exact ih2 hmem

theorem splitKey_none_iff : ∀ {l : List Char}, splitKey l = none ↔ '}' ∉ l := by
  intro l
  induction l with
  | nil => simp [splitKey]
  | cons c rest ih =>
    by_cases hc : c = '}'
    · subst hc
      simp [splitKey]
    · rw [show splitKey (c :: rest) = (splitKey rest).map (fun p => (c :: p.1, p.2)) by
        cases c; simp [splitKey, hc]]
      rw [List.mem_cons, Option.map_eq_none']
      rw [ih]
      constructor
      · intro h
        rintro (rfl | hm)
        · exact hc rfl
        · exact h hm
      · intro h hm
        exact h (Or.inr hm)

theorem splitKey_append_no_rbrace : ∀ (k s : List Char), '}' ∉ k →
    splitKey (k ++ '}' :: s) = some (k, s) := by
  intro k
  induction k with
  | nil => intro s _; simp [splitKey]
  | cons c k' ih =>
    intro s hmem
    have hc : c ≠ '}' := fun h => hmem (by simp [h])
    rw [List.cons_append]
    rw [show splitKey (c :: (k' ++ '}' :: s)) =
        (splitKey (k' ++ '}' :: s)).map (fun p => (c :: p.1, p.2)) by
      cases c; simp [splitKey, hc]]
    rw [ih s (fun h => hmem (List.mem_cons_of_mem c h))]
    rfl

theorem lookupEnv_mem {env : List (String × String)} {k : List Char} {v : String}
    (hv : lookupEnv env k = some v) : ∃ key, (key, v) ∈ env := by
  unfold lookupEnv at hv
  cases hf : env.find? (fun p => p.1 == String.mk k) with
  | none => rw [hf] at hv; simp at hv
  | some pq =>
    rw [hf] at hv
    simp at hv
    refine ⟨pq.1, ?_⟩
    have := List.mem_of_find?_eq_some hf
    rw [← hv]
    simpa using this

theorem expandChars_append_clean (env : List (String × String)) :
    ∀ (p t : List Char), (∀ c ∈ p, c ≠ '$') →
    expandChars env (p ++ t) = p ++ expandChars env t := by
  intro p
  induction p with
  | nil => intro t _; simp
  | cons c p' ih =>
    intro t hp
    rw [List.cons_append,
      expandChars_cons_ne env c _ (hp c (List.mem_cons_self c p')),
      ih t (fun d hd => hp d (List.mem_cons_of_mem c hd)), List.cons_append]

theorem expandChars_no_rbrace (env : List (String × String)) : ∀ (l : List Char),
    '}' ∉ l → expandChars env l = l := by
  intro l
  refine expandChars.induct env (fun l => '}' ∉ l → expandChars env l = l)
    ?_ ?_ ?_ ?_ ?_ ?_ l
  · intro _
    simp [expandChars]
  · intro rest r hsk ih hmem
    obtain ⟨hd, -⟩ := splitKey_decomp hsk
    have hin : '}' ∈ rest := by rw [hd]; simp
    exact absurd (List.mem_cons_of_mem _ (List.mem_cons_of_mem _ hin)) hmem
  · intro rest k r hsk hk v hv ih hmem
    obtain ⟨hd, -⟩ := splitKey_decomp hsk
    have hin : '}' ∈ rest := by rw [hd]; simp
    exact absurd (List.mem_cons_of_mem _ (List.mem_cons_of_mem _ hin)) hmem
  · intro rest k r hsk hk hv ih hmem
    obtain ⟨hd, -⟩ := splitKey_decomp hsk
    have hin : '}' ∈ rest := by rw [hd]; simp
    exact absurd (List.mem_cons_of_mem _ (List.mem_cons_of_mem _ hin)) hmem
  · intro rest hsk ih hmem
    rw [expandChars_no_close env rest hsk]
    rw [ih (fun h => hmem (List.mem_cons_of_mem _ h))]
  · intro c l2 hcond ih hmem
    rw [expandChars_cons_nomatch env c l2 hcond]
    rw [ih (fun h => hmem (List.mem_cons_of_mem c h))]

theorem expandChars_head (env : List (String × String))
    (henv : ∀ pq ∈ env, pq.2.data ≠ [] ∧ ∀ c ∈ pq.2.data, c ≠ '$' ∧ c ≠ '{') :
    ∀ (l : List Char), l.head? ≠ some '{' →
    (expandChars env l).head? ≠ some '{' := by
  intro l
  refine expandChars.induct env
    (fun l => l.head? ≠ some '{' → (expandChars env l).head? ≠ some '{')
    ?_ ?_ ?_ ?_ ?_ ?_ l
  · intro _
    simp [expandChars]
  · intro rest r hsk ih _
    rw [expandChars_empty_key env rest r hsk]
    simp
  · intro rest k r hsk hk v hv ih _
    rw [expandChars_ref env rest k r hsk hk, hv]
    obtain ⟨key, hkey⟩ := lookupEnv_mem hv
    obtain ⟨hne, hchars⟩ := henv (key, v) hkey
    cases hvd : v.data with
    | nil => exact absurd hvd hne
    | cons a as =>
      simp only [hvd, List.cons_append, List.head?_cons]
      have := (hchars a (by rw [hvd]; exact List.mem_cons_self a as)).2
      intro hcontra
      exact this (by injection hcontra)
  · intro rest k r hsk hk hv ih _
    rw [expandChars_ref env rest k r hsk hk, hv]
    simp
  · intro rest hsk ih _
    rw [expandChars_no_close env rest hsk]
    simp
  · intro c l2 hcond ih hhd
    rw [expandChars_cons_nomatch env c l2 hcond]
    simpa using (by simpa using hhd : c ≠ '{')

theorem expandChars_idem (env : List (String × String))
    (henv : ∀ pq ∈ env, pq.2.data ≠ [] ∧ ∀ c ∈ pq.2.data, c ≠ '$' ∧ c ≠ '{') :
    ∀ (l : List Char),
    expandChars env (expandChars env l) = expandChars env l := by
  intro l
  refine expandChars.induct env
    (fun l => expandChars env (expandChars env l) = expandChars env l)
    ?_ ?_ ?_ ?_ ?_ ?_ l
  · show expandChars env (expandChars env []) = expandChars env []
    rw [expandChars_nil, expandChars_nil]
  · intro rest r hsk ih
    simp only [] at ih ⊢
    obtain ⟨hd, -⟩ := splitKey_decomp hsk
    rw [List.nil_append] at hd
    have hrest : expandChars env (expandChars env rest) = expandChars env rest := by
      rw [expandChars_cons_ne env '{' rest (by decide)] at ih
      rw [expandChars_cons_ne env '{' (expandChars env rest) (by decide)] at ih
      injection ih
    subst hd
    rw [expandChars_empty_key env ('}' :: r) r hsk]
    rw [expandChars_cons_ne env '{' ('}' :: r) (by decide)]
    rw [expandChars_cons_ne env '}' r (by decide)]
    rw [expandChars_empty_key env ('}' :: expandChars env r) (expandChars env r)
      (by simp [splitKey])]
    rw [expandChars_cons_ne env '{' ('}' :: expandChars env r) (by decide)]
    rw [expandChars_cons_ne env '}' (expandChars env r) (by decide)]
    rw [expandChars_cons_ne env '}' r (by decide)] at hrest
    rw [expandChars_cons_ne env '}' (expandChars env r) (by decide)] at hrest
    have : expandChars env (expandChars env r) = expandChars env r := by
      injection hrest
    rw [this]
  · intro rest k r hsk hk v hv ih
    simp only [] at ih ⊢
    rw [expandChars_ref env rest k r hsk hk, hv]
    obtain ⟨key, hkey⟩ := lookupEnv_mem hv
    obtain ⟨hne, hchars⟩ := henv (key, v) hkey
    rw [expandChars_append_clean env v.data (expandChars env r)
      (fun c hc => (hchars c hc).1)]
    rw [ih]
  · intro rest k r hsk hk hv ih
    simp only [] at ih ⊢
    obtain ⟨-, hknb⟩ := splitKey_decomp hsk
    rw [expandChars_ref env rest k r hsk hk, hv]
    rw [expandChars_ref env (k ++ '}' :: expandChars env r) k (expandChars env r)
      (splitKey_append_no_rbrace k _ hknb) hk, hv]
    rw [ih]
  · intro rest hsk ih
    simp only [] at ih ⊢
    have hnr : '}' ∉ rest := splitKey_none_iff.mp hsk
    rw [expandChars_no_close env rest hsk]
    rw [expandChars_cons_ne env '{' rest (by decide)]
    rw [expandChars_no_rbrace env rest hnr]
    rw [expandChars_no_close env rest hsk]
    rw [expandChars_cons_ne env '{' rest (by decide)]
    rw [expandChars_no_rbrace env rest hnr]
  · intro c l2 hcond ih
    simp only [] at ih ⊢
    rw [expandChars_cons_nomatch env c l2 hcond]
    by_cases hc : c = '$'
    · subst hc
      have hl2 : l2.head? ≠ some '{' := by
        intro hh
        cases l2 with
        | nil => simp at hh
        | cons d l3 =>
          simp at hh
          exact hcond l3 rfl (by rw [hh])
      rw [expandChars_dollar env (expandChars env l2)
        (expandChars_head env henv l2 hl2)]
      rw [ih]
    · rw [expandChars_cons_ne env c (expandChars env l2) hc, ih]

/-! ## Claim C4: variable expansion semantics -/

theorem cex_eval_one : expandChars envCex sCex.data = "x${B}".data := by
  simp [expandChars, splitKey, lookupEnv, envCex, sCex]

theorem cex_eval_two : expandChars envCex ("x${B}".data) = "xy".data := by
  simp [expandChars, splitKey, lookupEnv, envCex]

/-- C4: expansion substitutes `${K}` for a key defined in the environment
and leaves a reference to an undefined key untouched verbatim (first
conjunct, for an arbitrary well-formed reference after a `$`-free prefix);
in the merged environment of `Recipe.load`, a key bound in the `vars`
block wins over the built-ins and the process environment (second
conjunct); and with `vars = {A: "x"}` and `B` undefined, `"${A}/${B}"`
expands to `"x/${B}"` (third conjunct) with no error (expansion is total). -/
theorem expand_with_spec (env : List (String × String)) (p k s : List Char)
    (hp : ∀ c ∈ p, c ≠ '$') (hk : k ≠ []) (hkc : '}' ∉ k) :
    (expandChars env (p ++ '$' :: '{' :: (k ++ '}' :: s)) =
      p ++ (match lookupEnv env k with
            | some v => v.data
            | none => '$' :: '{' :: (k ++ ['}'])) ++ expandChars env s) ∧
    (∀ procEnv varsBlock nm ver,
      (List.find? (fun q => q.1 == String.mk k) varsBlock).isSome = true →
      lookupEnv (mergedEnv procEnv varsBlock nm ver) k =
        (List.find? (fun q => q.1 == String.mk k) varsBlock).map Prod.snd) ∧
    expandWith [("A", "x")] "${A}/${B}" = "x/${B}" := by
  refine ⟨?_, ?_, ?_⟩
  · rw [expandChars_append_clean env p _ hp]
    rw [expandChars_ref env (k ++ '}' :: s) k s (splitKey_append_no_rbrace k s hkc) hk]
    cases hv : lookupEnv env k with
    | some v => simp
    | none => simp
  · intro procEnv varsBlock nm ver hsome
    unfold lookupEnv mergedEnv
    rw [List.find?_append, List.find?_append]
    cases hf : List.find? (fun q => q.1 == String.mk k) varsBlock with
    | none => rw [hf] at hsome; simp at hsome
    | some pq => rfl
  · simp [expandWith, expandChars, splitKey, lookupEnv]

/-- Witness for C4: `${K}` with `K` bound to `v` after the `$`-free prefix
`pre-` and before `/tail`. -/
theorem expand_with_spec_witness :
    ((∀ c ∈ ("pre-".data : List Char), c ≠ '$') ∧ ("K".data : List Char) ≠ [] ∧
      '}' ∉ ("K".data : List Char)) ∧
    ((expandChars [("K", "v")]
        ("pre-".data ++ '$' :: '{' :: ("K".data ++ '}' :: "/tail".data)) =
      "pre-".data ++ (match lookupEnv [("K", "v")] "K".data with
            | some v => v.data
            | none => '$' :: '{' :: ("K".data ++ ['}'])) ++
        expandChars [("K", "v")] "/tail".data) ∧
    (∀ procEnv varsBlock nm ver,
      (List.find? (fun q => q.1 == String.mk "K".data) varsBlock).isSome = true →
      lookupEnv (mergedEnv procEnv varsBlock nm ver) "K".data =
        (List.find? (fun q => q.1 == String.mk "K".data) varsBlock).map Prod.snd) ∧
    expandWith [("A", "x")] "${A}/${B}" = "x/${B}") :=
  ⟨⟨by decide, by decide, by decide⟩,
    expand_with_spec [("K", "v")] "pre-".data "K".data "/tail".data
      (by decide) (by decide) (by decide)⟩

/-! ## Claim C5: expansion is not idempotent as claimed; it is for plain
values -/

/-- C5 counterexample: in `envCex` (where `A` maps to the two characters
`${` and `B` to `y`) no value contains any `${...}` reference at all
(first conjunct, stated via the reference scanner `refKeys`), yet
expanding `sCex` (the characters `x${A}B}`) once gives `x${B}` while
expanding twice gives `xy`: a second pass with the same environment
changes the string, so expansion is not idempotent under the claim's
hypothesis. -/
theorem expand_not_idempotent :
    (∀ pq ∈ envCex, ∀ rk ∈ refKeys pq.2.data, lookupEnv envCex rk = none) ∧
    expandChars envCex (expandChars envCex sCex.data) ≠
      expandChars envCex sCex.data := by
  constructor
  · intro pq hpq rk hrk
    simp [envCex] at hpq
    rcases hpq with rfl | rfl
    · simp [refKeys, splitKey] at hrk
    · simp [refKeys, splitKey] at hrk
  · rw [cex_eval_one, cex_eval_two]
    decide

/-- C5 (amended): expansion is idempotent for every string when every
value of the environment is nonempty and contains neither `$` nor `{` —
so in particular values cannot splice with surrounding text into new
references on a second pass (the unamended claim fails because a value
like `${` contains no complete reference yet creates one, see the
counterexample). -/
theorem expand_idempotent_plain (env : List (String × String))
    (henv : ∀ pq ∈ env, pq.2.data ≠ [] ∧ ∀ c ∈ pq.2.data, c ≠ '$' ∧ c ≠ '{')
    (s : String) :
    expandWith env (expandWith env s) = expandWith env s := by
  unfold expandWith
  rw [show (String.mk (expandChars env s.data)).data = expandChars env s.data from rfl]
  rw [expandChars_idem env henv]

/-- Witness for the amended C5 at `vars = {A: "x", B: "y"}` and the field
`"${A}/${B}"`. -/
theorem expand_idempotent_plain_witness :
    (∀ pq ∈ ([("A", "x"), ("B", "y")] : List (String × String)),
      pq.2.data ≠ [] ∧ ∀ c ∈ pq.2.data, c ≠ '$' ∧ c ≠ '{') ∧
    expandWith [("A", "x"), ("B", "y")]
        (expandWith [("A", "x"), ("B", "y")] "${A}/${B}") =
      expandWith [("A", "x"), ("B", "y")] "${A}/${B}" :=
  ⟨by decide, expand_idempotent_plain [("A", "x"), ("B", "y")] (by decide) "${A}/${B}"⟩

/-! ## Resolver lemmas: the dfs closure -/

theorem dfsRun_nil (recipes : List Recipe) (needed : List String) :
    dfsRun recipes [] needed = needed := by
  rw [dfsRun.eq_def]

theorem dfsRun_cons (recipes : List Recipe) (n : String)
    (stack needed : List String) :
    dfsRun recipes (n :: stack) needed =
      if hasRecipe recipes n && !(memB n needed) then
        dfsRun recipes (depsOf recipes n ++ stack) (needed ++ [n])
      else dfsRun recipes stack needed := by
  rw [dfsRun.eq_def]

theorem dfsRun_mono (recipes : List Recipe) : ∀ (stack needed : List String),
    ∀ x, x ∈ needed → x ∈ dfsRun recipes stack needed := by
  intro stack needed
  refine dfsRun.induct recipes
    (fun stack needed => ∀ x, x ∈ needed → x ∈ dfsRun recipes stack needed)
    ?_ ?_ ?_ stack needed
  · intro needed x hx
    rw [dfsRun_nil]
    exact hx
  · intro n stack needed h ih x hx
    rw [dfsRun_cons, if_pos h]
    exact ih x (List.mem_append_left _ hx)
  · intro n stack needed h ih x hx
    rw [dfsRun_cons, if_neg h]
    exact ih x hx

theorem dfsRun_stack_mem (recipes : List Recipe) :
    ∀ (stack needed : List String), ∀ d, d ∈ stack →
    hasRecipe recipes d = true → d ∈ dfsRun recipes stack needed := by
  intro stack needed
  refine dfsRun.induct recipes
    (fun stack needed => ∀ d, d ∈ stack → hasRecipe recipes d = true →
      d ∈ dfsRun recipes stack needed)
    ?_ ?_ ?_ stack needed
  · intro needed d hd _
    simp at hd
  · intro n stack needed h ih d hd hr
    rw [dfsRun_cons, if_pos h]
    rcases List.mem_cons.mp hd with rfl | hd
    · exact dfsRun_mono recipes _ _ d (List.mem_append_right _ (List.mem_singleton.mpr rfl))
    · exact ih d (List.mem_append_right _ hd) hr
  · intro n stack needed h ih d hd hr
    rw [dfsRun_cons, if_neg h]
    rcases List.mem_cons.mp hd with rfl | hd
    · rw [Bool.and_eq_true, Bool.not_eq_true', Classical.not_and_iff_or_not_not] at h
      rcases h with h | h
      · exact absurd hr h
      · rw [Bool.not_eq_false] at h
        exact dfsRun_mono recipes _ _ d (memB_iff.mp h)
    · exact ih d hd hr

theorem dfsRun_has_recipe (recipes : List Recipe) :
    ∀ (stack needed : List String), ∀ x, x ∈ dfsRun recipes stack needed →
    x ∈ needed ∨ hasRecipe recipes x = true := by
  intro stack needed
  refine dfsRun.induct recipes
    (fun stack needed => ∀ x, x ∈ dfsRun recipes stack needed →
      x ∈ needed ∨ hasRecipe recipes x = true)
    ?_ ?_ ?_ stack needed
  · intro needed x hx
    rw [dfsRun_nil] at hx
    exact Or.inl hx
  · intro n stack needed h ih x hx
    rw [dfsRun_cons, if_pos h] at hx
    rcases ih x hx with hx2 | hx2
    · rcases List.mem_append.mp hx2 with hx3 | hx3
      · exact Or.inl hx3
      · rw [List.mem_singleton] at hx3
        subst hx3
        rw [Bool.and_eq_true] at h
        exact Or.inr h.1
    · exact Or.inr hx2
  · intro n stack needed h ih x hx
    rw [dfsRun_cons, if_neg h] at hx
    exact ih x hx

theorem dfsRun_closed (recipes : List Recipe) :
    ∀ (stack needed : List String), ∀ x, x ∈ dfsRun recipes stack needed →
    x ∈ needed ∨ (∀ d, d ∈ depsOf recipes x → hasRecipe recipes d = true →
      d ∈ dfsRun recipes stack needed) := by
  intro stack needed
  refine dfsRun.induct recipes
    (fun stack needed => ∀ x, x ∈ dfsRun recipes stack needed →
      x ∈ needed ∨ (∀ d, d ∈ depsOf recipes x → hasRecipe recipes d = true →
        d ∈ dfsRun recipes stack needed))
    ?_ ?_ ?_ stack needed
  · intro needed x hx
    rw [dfsRun_nil] at hx
    exact Or.inl hx
  · intro n stack needed h ih x hx
    rw [dfsRun_cons, if_pos h] at hx ⊢
    rcases ih x hx with hx2 | hx2
    · rcases List.mem_append.mp hx2 with hx3 | hx3
      · exact Or.inl hx3
      · rw [List.mem_singleton] at hx3
        subst hx3
        refine Or.inr ?_
        intro d hd hr
        exact dfsRun_stack_mem recipes _ _ d (List.mem_append_left _ hd) hr
    · exact Or.inr hx2
  · intro n stack needed h ih x hx
    rw [dfsRun_cons, if_neg h] at hx ⊢
    exact ih x hx

theorem dfsRun_nodup (recipes : List Recipe) :
    ∀ (stack needed : List String), needed.Nodup →
    (dfsRun recipes stack needed).Nodup := by
  intro stack needed
  refine dfsRun.induct recipes
    (fun stack needed => needed.Nodup → (dfsRun recipes stack needed).Nodup)
    ?_ ?_ ?_ stack needed
  · intro needed hnd
    rw [dfsRun_nil]
    exact hnd
  · intro n stack needed h ih hnd
    rw [dfsRun_cons, if_pos h]
    refine ih ?_
    rw [Bool.and_eq_true, Bool.not_eq_true'] at h
    have : n ∉ needed := fun hc => by
      rw [memB_false_iff] at h
      exact h.2 hc
    simp [List.nodup_append, hnd, this]
  · intro n stack needed h ih hnd
    rw [dfsRun_cons, if_neg h]
    exact ih hnd

theorem topoNeeded_closed (recipes : List Recipe) (reqs : List String) :
    ∀ x, x ∈ topoNeeded recipes reqs → ∀ d, d ∈ depsOf recipes x →
    hasRecipe recipes d = true → d ∈ topoNeeded recipes reqs := by
  intro x hx d hd hr
  rcases dfsRun_closed recipes reqs [] x hx with h | h
  · simp at h
  · exact h d hd hr

theorem topoNeeded_has_recipe (recipes : List Recipe) (reqs : List String) :
    ∀ x, x ∈ topoNeeded recipes reqs → hasRecipe recipes x = true := by
  intro x hx
  rcases dfsRun_has_recipe recipes reqs [] x hx with h | h
  · simp at h
  · exact h

theorem topoNeeded_nodup (recipes : List Recipe) (reqs : List String) :
    (topoNeeded recipes reqs).Nodup := by
  exact dfsRun_nodup recipes reqs [] List.nodup_nil

theorem subgOf_nodup (recipes : List Recipe) (needed : List String) (m : String) :
    (subgOf recipes needed m).Nodup := by
  unfold subgOf depsOf
  cases recipes.find? (fun r => r.name == m) with
  | none => simp
  | some r => exact (List.nodup_dedup _).filter _

/-! ## Resolver lemmas: the Kahn loop -/

theorem get?_some_lt {l : List String} {i : Nat} {x : String}
    (h : l.get? i = some x) : i < l.length := by
  by_contra hc
  rw [not_lt] at hc
  rw [List.get?_eq_none.mpr hc] at h
  exact Option.noConfusion h

theorem nodup_get?_inj {l : List String} (hnd : l.Nodup) {i j : Nat} {x : String}
    (hi : l.get? i = some x) (hj : l.get? j = some x) : i = j := by
  obtain ⟨hib, hig⟩ := List.get?_eq_some.mp hi
  obtain ⟨hjb, hjg⟩ := List.get?_eq_some.mp hj
  have : l.get ⟨i, hib⟩ = l.get ⟨j, hjb⟩ := by rw [hig, hjg]
  have := (List.Nodup.get_inj_iff hnd).mp this
  exact congrArg Fin.val this

theorem precedes_append (l : List String) (a b x : String)
    (h : precedes l a b) : precedes (l ++ [x]) a b := by
  obtain ⟨i, j, hij, ha, hb⟩ := h
  refine ⟨i, j, hij, ?_, ?_⟩
  · rw [List.get?_append (get?_some_lt ha)]
    exact ha
  · rw [List.get?_append (get?_some_lt hb)]
    exact hb

theorem precedes_new (l : List String) (a x : String) (ha : a ∈ l) :
    precedes (l ++ [x]) a x := by
  obtain ⟨i, hi⟩ := List.mem_iff_get?.mp ha
  refine ⟨i, l.length, get?_some_lt hi, ?_, ?_⟩
  · rw [List.get?_append (get?_some_lt hi)]
    exact hi
  · exact List.get?_concat_length l x

theorem precedes_mem_left {l : List String} {a b : String}
    (h : precedes l a b) : a ∈ l := by
  obtain ⟨i, j, hij, ha, hb⟩ := h
  exact List.get?_mem ha

theorem kahnBody_snd (subgD : String → List String) (n : String) :
    ∀ (ms : List String) (st : List String × (String → Int)), ms.Nodup →
    ∀ x, (kahnBody subgD n ms st).2 x =
      if x ∈ ms ∧ memB n (subgD x) = true then st.2 x - 1 else st.2 x := by
  intro ms
  induction ms with
  | nil =>
    intro st _ x
    simp [kahnBody]
  | cons m ms ih =>
    intro st hnd x
    obtain ⟨hm_nin, hnd'⟩ := List.nodup_cons.mp hnd
    by_cases hm : memB n (subgD m) = true
    · rw [show kahnBody subgD n (m :: ms) st = kahnBody subgD n ms
          ((if st.2 m - 1 = 0 then st.1 ++ [m] else st.1),
            updf st.2 m (st.2 m - 1)) by simp [kahnBody, hm]]
      rw [ih _ hnd' x]
      by_cases hxm : x = m
      · subst hxm
        simp [updf, hm, hm_nin]
      · simp [updf, hxm, List.mem_cons]
    · rw [show kahnBody subgD n (m :: ms) st = kahnBody subgD n ms st by
        simp [kahnBody, hm]]
      rw [ih _ hnd' x]
      by_cases hxm : x = m
      · subst hxm
        simp [hm]
      · simp [List.mem_cons, hxm]

theorem kahnBody_fst (subgD : String → List String) (n : String) :
    ∀ (ms : List String) (st : List String × (String → Int)), ms.Nodup →
    (kahnBody subgD n ms st).1 =
      st.1 ++ ms.filter (fun m => memB n (subgD m) && (st.2 m - 1 == 0)) := by
  intro ms
  induction ms with
  | nil =>
    intro st _
    simp [kahnBody]
  | cons m ms ih =>
    intro st hnd
    obtain ⟨hm_nin, hnd'⟩ := List.nodup_cons.mp hnd
    by_cases hm : memB n (subgD m) = true
    · rw [show kahnBody subgD n (m :: ms) st = kahnBody subgD n ms
          ((if st.2 m - 1 = 0 then st.1 ++ [m] else st.1),
            updf st.2 m (st.2 m - 1)) by simp [kahnBody, hm]]
      rw [ih _ hnd']
      have hcong : ms.filter (fun m2 => memB n (subgD m2) &&
            ((updf st.2 m (st.2 m - 1)) m2 - 1 == 0)) =
          ms.filter (fun m2 => memB n (subgD m2) && (st.2 m2 - 1 == 0)) := by
        apply List.filter_congr
        intro x hx
        have hxm : x ≠ m := fun he => hm_nin (he ▸ hx)
        simp [updf, hxm]
      dsimp only
      rw [hcong]
      by_cases hz : st.2 m - 1 = 0
      · rw [if_pos hz]
        rw [show (m :: ms).filter (fun m2 => memB n (subgD m2) && (st.2 m2 - 1 == 0)) =
            m :: ms.filter (fun m2 => memB n (subgD m2) && (st.2 m2 - 1 == 0)) by
          rw [List.filter_cons]
          simp [hm, hz]]
        simp
      · rw [if_neg hz]
        rw [show (m :: ms).filter (fun m2 => memB n (subgD m2) && (st.2 m2 - 1 == 0)) =
            ms.filter (fun m2 => memB n (subgD m2) && (st.2 m2 - 1 == 0)) by
          rw [List.filter_cons]
          simp [hm, hz]]
    · rw [show kahnBody subgD n (m :: ms) st = kahnBody subgD n ms st by
        simp [kahnBody, hm]]
      rw [ih _ hnd']
      rw [show (m :: ms).filter (fun m2 => memB n (subgD m2) && (st.2 m2 - 1 == 0)) =
          ms.filter (fun m2 => memB n (subgD m2) && (st.2 m2 - 1 == 0)) by
        rw [List.filter_cons]
        simp [hm]]

theorem memB_append_one (x n : String) (out : List String) :
    memB x (out ++ [n]) = (memB x out || (n == x)) := by
  simp [memB, List.any_append]

theorem filter_drop_one (out : List String) (n : String) :
    ∀ (l : List String), l.Nodup → n ∈ l → memB n out = false →
    ((l.filter (fun a => !memB a (out ++ [n]))).length) + 1 =
      (l.filter (fun a => !memB a out)).length := by
  intro l
  induction l with
  | nil =>
    intro _ h
    simp at h
  | cons b t ih =>
    intro hnd hm hout
    obtain ⟨hb_nin, hnd'⟩ := List.nodup_cons.mp hnd
    by_cases hbn : b = n
    · subst hbn
      have h1 : memB b (out ++ [b]) = true := by
        rw [memB_append_one]
        simp
      have hcong : t.filter (fun a => !memB a (out ++ [b])) =
          t.filter (fun a => !memB a out) := by
        apply List.filter_congr
        intro x hx
        have hxb : x ≠ b := fun he => hb_nin (he ▸ hx)
        rw [memB_append_one]
        rw [show (b == x) = false from by
          rw [beq_eq_false_iff_ne]
          exact fun he => hxb he.symm]
        simp
      rw [List.filter_cons, List.filter_cons, h1, hout]
      simp only [Bool.not_true, Bool.not_false, Bool.false_eq_true, if_false, if_true]
      rw [hcong]
      simp
    · have hm' : n ∈ t := by
        rcases List.mem_cons.mp hm with h | h
        · exact absurd h.symm hbn
        · exact h
      have hmemeq : memB b (out ++ [n]) = memB b out := by
        rw [memB_append_one]
        rw [show (n == b) = false from by
          rw [beq_eq_false_iff_ne]
          exact fun he => hbn he.symm]
        simp
      rw [List.filter_cons, List.filter_cons, hmemeq]
      cases hbv : memB b out with
      | true =>
        simp only [Bool.not_true, Bool.false_eq_true, if_false]
        exact ih hnd' hm' hout
      | false =>
        simp only [Bool.not_false, if_true, List.length_cons]
        have := ih hnd' hm' hout
        omega

theorem filter_all_out {out : List String} {l : List String}
    (h : ∀ a, a ∈ l → a ∈ out) :
    l.filter (fun a => !memB a out) = [] := by
  rw [List.filter_eq_nil]
  intro a ha
  rw [Bool.not_eq_true, Bool.not_eq_false']
  exact memB_iff.mpr (h a ha)

theorem length_one_mem {l : List String} {x : String}
    (hlen : l.length = 1) (hx : x ∈ l) : l = [x] := by
  cases l with
  | nil => simp at hx
  | cons a t =>
    cases t with
    | nil =>
      rcases List.mem_cons.mp hx with rfl | h
      · rfl
      · simp at h
    | cons b t2 => simp at hlen

theorem kahn_step_inv (nodes : List String) (subgD : String → List String)
    (hnd : nodes.Nodup) (hsub : ∀ m, (subgD m).Nodup)
    (n : String) (qrest out : List String) (indeg : String → Int)
    (hinv : KInv nodes subgD (n :: qrest) out indeg) :
    KInv nodes subgD (kahnBody subgD n nodes (qrest, indeg)).1 (out ++ [n])
      (kahnBody subgD n nodes (qrest, indeg)).2 := by
  have hn_node : n ∈ nodes := hinv.q_sub n (List.mem_cons_self n qrest)
  have hn_nout : n ∉ out := hinv.disj n (List.mem_cons_self n qrest)
  obtain ⟨hn_ninq, hq_nd⟩ := List.nodup_cons.mp hinv.q_nd
  have hfst := kahnBody_fst subgD n nodes (qrest, indeg) hnd
  have hsnd := kahnBody_snd subgD n nodes (qrest, indeg) hnd
  dsimp only at hfst hsnd
  -- members of the enqueue batch had in-degree exactly one
  have henq : ∀ x, x ∈ nodes.filter
      (fun m => memB n (subgD m) && (indeg m - 1 == 0)) →
      x ∈ nodes ∧ memB n (subgD x) = true ∧ indeg x = 1 := by
    intro x hx
    obtain ⟨hx1, hx2⟩ := List.mem_filter.mp hx
    rw [Bool.and_eq_true] at hx2
    refine ⟨hx1, hx2.1, ?_⟩
    have := hx2.2
    rw [beq_iff_eq] at this
    omega
  -- a node whose restricted deps all lie in out has in-degree zero
  have hzero : ∀ b, b ∈ nodes → (∀ a, a ∈ subgD b → a ∈ out) → indeg b = 0 := by
    intro b hb hall
    rw [hinv.deg b hb, filter_all_out hall]
    rfl
  -- out members have in-degree zero
  have hout_zero : ∀ b, b ∈ out → indeg b = 0 := by
    intro b hb
    exact hzero b (hinv.out_sub b hb) (fun a ha => precedes_mem_left (hinv.out_ord b hb a ha))
  have hn_zero : indeg n = 0 :=
    hzero n hn_node (hinv.q_ready n (List.mem_cons_self n qrest))
  constructor
  case q_nd =>
    rw [hfst]
    rw [List.nodup_append]
    refine ⟨hq_nd, List.Nodup.filter _ hnd, ?_⟩
    intro x hx1 hx2
    obtain ⟨-, -, hdeg1⟩ := henq x hx2
    have : indeg x = 0 :=
      hzero x (hinv.q_sub x (List.mem_cons_of_mem n hx1))
        (hinv.q_ready x (List.mem_cons_of_mem n hx1))
    omega
  case out_nd =>
    simp [List.nodup_append, hinv.out_nd, hn_nout]
  case disj =>
    intro x hx
    rw [hfst] at hx
    rcases List.mem_append.mp hx with hx | hx
    · intro hc
      rcases List.mem_append.mp hc with hc | hc
      · exact hinv.disj x (List.mem_cons_of_mem n hx) hc
      · rw [List.mem_singleton] at hc
        exact hn_ninq (hc ▸ hx)
    · obtain ⟨hxn, -, hdeg1⟩ := henq x hx
      intro hc
      rcases List.mem_append.mp hc with hc | hc
      · have := hout_zero x hc
        omega
      · rw [List.mem_singleton] at hc
        subst hc
        omega
  case q_sub =>
    intro x hx
    rw [hfst] at hx
    rcases List.mem_append.mp hx with hx | hx
    · exact hinv.q_sub x (List.mem_cons_of_mem n hx)
    · exact (List.mem_filter.mp hx).1
  case out_sub =>
    intro x hx
    rcases List.mem_append.mp hx with hx | hx
    · exact hinv.out_sub x hx
    · rw [List.mem_singleton] at hx
      subst hx
      exact hn_node
  case deg =>
    intro m hm
    rw [hsnd m]
    by_cases hmem : memB n (subgD m) = true
    · rw [if_pos ⟨hm, hmem⟩, hinv.deg m hm]
      have hdrop := filter_drop_one out n (subgD m) (hsub m)
        (memB_iff.mp hmem) (memB_false_iff.mpr hn_nout)
      omega
    · rw [if_neg (fun hc => hmem hc.2), hinv.deg m hm]
      have heq : (subgD m).filter (fun a => !memB a (out ++ [n])) =
          (subgD m).filter (fun a => !memB a out) := by
        apply List.filter_congr
        intro a ha
        have han : a ≠ n := by
          intro he
          exact hmem (memB_iff.mpr (he ▸ ha))
        rw [memB_append_one]
        rw [show (n == a) = false from by
          rw [beq_eq_false_iff_ne]
          exact fun he => han he.symm]
        simp
      rw [heq]
  case q_ready =>
    intro b hb a ha
    rw [hfst] at hb
    rcases List.mem_append.mp hb with hb | hb
    · exact List.mem_append_left _ (hinv.q_ready b (List.mem_cons_of_mem n hb) a ha)
    · obtain ⟨hbn, hbmem, hdeg1⟩ := henq b hb
      have hlen : ((subgD b).filter (fun a => !memB a out)).length = 1 := by
        have := hinv.deg b hbn
        rw [hdeg1] at this
        omega
      have hn_filter : n ∈ (subgD b).filter (fun a => !memB a out) := by
        rw [List.mem_filter]
        refine ⟨memB_iff.mp hbmem, ?_⟩
        rw [Bool.not_eq_true', memB_false_iff]
        exact hn_nout
      have hsingle := length_one_mem hlen hn_filter
      by_cases haout : a ∈ out
      · exact List.mem_append_left _ haout
      · have : a ∈ (subgD b).filter (fun a => !memB a out) := by
          rw [List.mem_filter]
          refine ⟨ha, ?_⟩
          rw [Bool.not_eq_true', memB_false_iff]
          exact haout
        rw [hsingle, List.mem_singleton] at this
        subst this
        exact List.mem_append_right _ (List.mem_singleton.mpr rfl)
  case out_ord =>
    intro b hb a ha
    rcases List.mem_append.mp hb with hb | hb
    · exact precedes_append out a b n (hinv.out_ord b hb a ha)
    · rw [List.mem_singleton] at hb
      subst hb
      exact precedes_new out a b (hinv.q_ready b (List.mem_cons_self b qrest) a ha)

theorem kahnLoop_nil (nodes : List String) (subgD : String → List String)
    (out : List String) (indeg : String → Int) :
    kahnLoop nodes subgD [] out indeg = out := by
  rw [kahnLoop.eq_def]

theorem kahnLoop_cons (nodes : List String) (subgD : String → List String)
    (n : String) (qrest out : List String) (indeg : String → Int) :
    kahnLoop nodes subgD (n :: qrest) out indeg =
      kahnLoop nodes subgD (kahnBody subgD n nodes (qrest, indeg)).1 (out ++ [n])
        (kahnBody subgD n nodes (qrest, indeg)).2 := by
  rw [kahnLoop.eq_def]

theorem kahnLoop_spec (nodes : List String) (subgD : String → List String)
    (hnd : nodes.Nodup) (hsub : ∀ m, (subgD m).Nodup) :
    ∀ (q out : List String) (indeg : String → Int),
    KInv nodes subgD q out indeg →
    (∀ b, b ∈ kahnLoop nodes subgD q out indeg → b ∈ nodes) ∧
    (kahnLoop nodes subgD q out indeg).Nodup ∧
    (∀ b, b ∈ kahnLoop nodes subgD q out indeg → ∀ a, a ∈ subgD b →
      precedes (kahnLoop nodes subgD q out indeg) a b) := by
  intro q out indeg
  refine kahnLoop.induct nodes subgD
    (fun q out indeg => KInv nodes subgD q out indeg →
      (∀ b, b ∈ kahnLoop nodes subgD q out indeg → b ∈ nodes) ∧
      (kahnLoop nodes subgD q out indeg).Nodup ∧
      (∀ b, b ∈ kahnLoop nodes subgD q out indeg → ∀ a, a ∈ subgD b →
        precedes (kahnLoop nodes subgD q out indeg) a b))
    ?_ ?_ q out indeg
  · intro out indeg hinv
    rw [kahnLoop_nil]
    exact ⟨hinv.out_sub, hinv.out_nd, hinv.out_ord⟩
  · intro n qrest out indeg ih hinv
    rw [kahnLoop_cons]
    exact ih (kahn_step_inv nodes subgD hnd hsub n qrest out indeg hinv)

theorem topoSort_eq (reqs : List String) (recipes : List Recipe) :
    topoSort reqs recipes =
      kahnLoop (topoNeeded recipes reqs)
        (subgOf recipes (topoNeeded recipes reqs))
        ((topoNeeded recipes reqs).filter
          (fun n => (((subgOf recipes (topoNeeded recipes reqs) n).length : Int) == 0)))
        []
        (fun n => ((subgOf recipes (topoNeeded recipes reqs) n).length : Int)) := rfl

theorem topoSort_init_inv (reqs : List String) (recipes : List Recipe) :
    KInv (topoNeeded recipes reqs) (subgOf recipes (topoNeeded recipes reqs))
      ((topoNeeded recipes reqs).filter
        (fun n => (((subgOf recipes (topoNeeded recipes reqs) n).length : Int) == 0)))
      []
      (fun n => ((subgOf recipes (topoNeeded recipes reqs) n).length : Int)) := by
  constructor
  case q_nd => exact (topoNeeded_nodup recipes reqs).filter _
  case out_nd => exact List.nodup_nil
  case disj => intro x _ hc; simp at hc
  case q_sub => intro x hx; exact (List.mem_filter.mp hx).1
  case out_sub => intro x hx; simp at hx
  case deg =>
    intro m _
    have : (subgOf recipes (topoNeeded recipes reqs) m).filter
        (fun a => !memB a []) = subgOf recipes (topoNeeded recipes reqs) m := by
      apply List.filter_eq_self.mpr
      intro a _
      simp [memB]
    rw [this]
  case q_ready =>
    intro b hb a ha
    obtain ⟨-, hb2⟩ := List.mem_filter.mp hb
    rw [beq_iff_eq] at hb2
    have : (subgOf recipes (topoNeeded recipes reqs) b).length = 0 := by
      exact_mod_cast hb2
    rw [List.length_eq_zero.mp this] at ha
    simp at ha
  case out_ord => intro b hb; simp at hb

theorem topoSort_spec (reqs : List String) (recipes : List Recipe) :
    (∀ b, b ∈ topoSort reqs recipes → b ∈ topoNeeded recipes reqs) ∧
    (topoSort reqs recipes).Nodup ∧
    (∀ b, b ∈ topoSort reqs recipes → ∀ a,
      a ∈ subgOf recipes (topoNeeded recipes reqs) b →
      precedes (topoSort reqs recipes) a b) := by
  rw [topoSort_eq]
  exact kahnLoop_spec (topoNeeded recipes reqs)
    (subgOf recipes (topoNeeded recipes reqs))
    (topoNeeded_nodup recipes reqs)
    (subgOf_nodup recipes (topoNeeded recipes reqs))
    _ _ _ (topoSort_init_inv reqs recipes)

/-! ## Concrete resolver evaluations (for witnesses and counterexamples) -/

theorem topoNeeded_demo_eval : topoNeeded demoRecipes ["c"] = ["c", "a", "b"] := by
  simp [topoNeeded, dfsRun, hasRecipe, depsOf, memB, demoRecipes, mkRecipe]

theorem topoSort_demo_eval : topoSort ["c"] demoRecipes = ["a", "b", "c"] := by
  rw [topoSort_eq, topoNeeded_demo_eval]
  simp [kahnLoop, kahnBody, subgOf, depsOf, hasRecipe, memB, updf, demoRecipes, mkRecipe]

theorem topoNeeded_cyc_eval : topoNeeded cycRecipes ["x"] = ["x", "y"] := by
  simp [topoNeeded, dfsRun, hasRecipe, depsOf, memB, cycRecipes, mkRecipe]

theorem topoSort_cyc_eval : topoSort ["x"] cycRecipes = [] := by
  rw [topoSort_eq, topoNeeded_cyc_eval]
  simp [kahnLoop, kahnBody, subgOf, depsOf, hasRecipe, memB, updf, cycRecipes, mkRecipe]

/-! ## Claim C1: dependencies precede their dependents in the build order -/

/-- C1: in `topo_sort`'s output, every dependency with a recipe of a listed
package occurs at a strictly earlier position (the output is also
duplicate-free, so positions are unambiguous). The property needs no
acyclicity hypothesis: it holds for every recipe list and target list, in
particular for every acyclic recipe map. -/
theorem topo_sort_deps_precede (reqs : List String) (recipes : List Recipe)
    (a b : String) (rb : Recipe)
    (hb : b ∈ topoSort reqs recipes)
    (hfind : recipes.find? (fun r => r.name == b) = some rb)
    (hdep : a ∈ rb.runtime_deps ∨ a ∈ rb.build_deps)
    (har : hasRecipe recipes a = true) :
    precedes (topoSort reqs recipes) a b ∧ (topoSort reqs recipes).Nodup := by
  obtain ⟨hsub, hnd, hord⟩ := topoSort_spec reqs recipes
  have hbneed : b ∈ topoNeeded recipes reqs := hsub b hb
  have hadeps : a ∈ depsOf recipes b := by
    unfold depsOf
    rw [hfind]
    rw [List.mem_dedup, List.mem_append]
    exact hdep
  have haneed : a ∈ topoNeeded recipes reqs :=
    topoNeeded_closed recipes reqs b hbneed a hadeps har
  have hasubg : a ∈ subgOf recipes (topoNeeded recipes reqs) b := by
    unfold subgOf
    rw [List.mem_filter]
    exact ⟨hadeps, memB_iff.mpr haneed⟩
  exact ⟨hord b hb a hasubg, hnd⟩

/-- Witness for C1 on the spec's example `{a: [], b: [a], c: [a,b]}`,
resolving `{c}` (the order is `[a, b, c]`). -/
theorem topo_sort_deps_precede_witness :
    ("c" ∈ topoSort ["c"] demoRecipes ∧
      demoRecipes.find? (fun r => r.name == "c") =
        some (mkRecipe "c" ["a", "b"] []) ∧
      ("a" ∈ (mkRecipe "c" ["a", "b"] []).runtime_deps ∨
        "a" ∈ (mkRecipe "c" ["a", "b"] []).build_deps) ∧
      hasRecipe demoRecipes "a" = true) ∧
    (precedes (topoSort ["c"] demoRecipes) "a" "c" ∧
      (topoSort ["c"] demoRecipes).Nodup) :=
  ⟨⟨by rw [topoSort_demo_eval]; decide, by decide, by decide, by decide⟩,
    topo_sort_deps_precede ["c"] demoRecipes "a" "c" (mkRecipe "c" ["a", "b"] [])
      (by rw [topoSort_demo_eval]; decide) (by decide) (by decide) (by decide)⟩

/-! ## Claim C2: behaviour on dependency cycles -/

/-- C2 counterexample: resolving `{x}` over the cyclic map `x→y→x` returns
normally — the model of `topo_sort` is a total function and yields the
empty partial order — although both `x` and `y` are in the needed set. No
`DependencyCycleError` (or any failure) exists on this path in the code:
the claimed error is never raised and a (here empty, in general partial)
order is returned. -/
theorem topo_sort_cycle_counterexample :
    topoSort ["x"] cycRecipes = [] ∧
    "x" ∈ topoNeeded cycRecipes ["x"] ∧ "y" ∈ topoNeeded cycRecipes ["x"] := by
  refine ⟨topoSort_cyc_eval, ?_, ?_⟩
  · rw [topoNeeded_cyc_eval]
    decide
  · rw [topoNeeded_cyc_eval]
    decide

/-- C2 (amended): when the needed subgraph contains a nonempty set of
packages each of which has a dependency inside the set (a dependency
cycle), `topo_sort` raises no error and silently returns a partial build
order from which every member of that set is missing. -/
theorem topo_sort_cycle_silent (reqs : List String) (recipes : List Recipe)
    (cyc : List String) (hne : cyc ≠ [])
    (hsub : ∀ c, c ∈ cyc → c ∈ topoNeeded recipes reqs)
    (hcy : ∀ c, c ∈ cyc → ∃ c2, c2 ∈ cyc ∧ c2 ∈ depsOf recipes c) :
    ∀ c, c ∈ cyc → c ∉ topoSort reqs recipes := by
  obtain ⟨hsub2, hnd, hord⟩ := topoSort_spec reqs recipes
  have key : ∀ j, ∀ c, c ∈ cyc → (topoSort reqs recipes).get? j = some c → False := by
    intro j
    induction j using Nat.strong_induction_on with
    | _ j ih =>
      intro c hc hj
      obtain ⟨c2, hc2cyc, hc2dep⟩ := hcy c hc
      have hcmem : c ∈ topoSort reqs recipes := List.get?_mem hj
      have hc2subg : c2 ∈ subgOf recipes (topoNeeded recipes reqs) c := by
        unfold subgOf
        rw [List.mem_filter]
        exact ⟨hc2dep, memB_iff.mpr (hsub c2 hc2cyc)⟩
      obtain ⟨i, j2, hij, hi, hj2⟩ := hord c hcmem c2 hc2subg
      have hjj : j2 = j := nodup_get?_inj hnd hj2 hj
      subst hjj
      exact ih i hij c2 hc2cyc hi
  intro c hc hmem
  obtain ⟨j, hj⟩ := List.mem_iff_get?.mp hmem
  exact key j c hc hj

/-- Witness for the amended C2 at the concrete cycle `x→y→x`. -/
theorem topo_sort_cycle_silent_witness :
    ((["x", "y"] : List String) ≠ [] ∧
      (∀ c, c ∈ (["x", "y"] : List String) → c ∈ topoNeeded cycRecipes ["x"]) ∧
      (∀ c, c ∈ (["x", "y"] : List String) →
        ∃ c2, c2 ∈ (["x", "y"] : List String) ∧ c2 ∈ depsOf cycRecipes c)) ∧
    (∀ c, c ∈ (["x", "y"] : List String) → c ∉ topoSort ["x"] cycRecipes) :=
  ⟨⟨by decide, by rw [topoNeeded_cyc_eval]; decide, by decide⟩,
    topo_sort_cycle_silent ["x"] cycRecipes ["x", "y"] (by decide)
      (by rw [topoNeeded_cyc_eval]; decide) (by decide)⟩

/-! ## Claim C9: unknown targets are silently dropped -/

/-- C9: `topo_sort`'s output only ever contains names that have a recipe,
and requesting a name absent from the recipe map raises no error and
contributes nothing: the output is unchanged. -/
theorem topo_sort_drops_unknown (reqs : List String) (recipes : List Recipe)
    (n : String) (h : hasRecipe recipes n = false) :
    (∀ x, x ∈ topoSort reqs recipes → hasRecipe recipes x = true) ∧
    topoSort (n :: reqs) recipes = topoSort reqs recipes := by
  constructor
  · intro x hx
    exact topoNeeded_has_recipe recipes reqs x ((topoSort_spec reqs recipes).1 x hx)
  · have hneq : topoNeeded recipes (n :: reqs) = topoNeeded recipes reqs := by
      unfold topoNeeded
      rw [dfsRun_cons]
      rw [if_neg (by simp [h])]
    rw [topoSort_eq, topoSort_eq, hneq]

/-- Witness for C9: requesting the unknown name `zzz` together with `c`
changes nothing. -/
theorem topo_sort_drops_unknown_witness :
    hasRecipe demoRecipes "zzz" = false ∧
    ((∀ x, x ∈ topoSort ["c"] demoRecipes → hasRecipe demoRecipes x = true) ∧
      topoSort ("zzz" :: ["c"]) demoRecipes = topoSort ["c"] demoRecipes) :=
  ⟨by decide, topo_sort_drops_unknown ["c"] demoRecipes "zzz" (by decide)⟩
